import Mathlib

/-!
Verification of the IPSpace property-table example
(`src/unit_tests/ex_ipspace_properties.cc`).

The development shallowly embeds the example's `Table`, its tokenizer, the
row layout bookkeeping, and the property variants (`FlagProperty`,
`FlagGroupProperty`, `TagProperty`) as executable Lean functions.  Text
(`swoc::TextView`) is modelled as `List Char`, byte spans
(`swoc::MemSpan<std::byte>`) as `List Nat` whose entries are the byte
values.  Library primitives of libswoc that are not part of the given
source (`TextView` trimming and splitting, `MemArena` allocation) are
modelled from the specification; each such definition carries a doc
comment saying so.
-/

set_option autoImplicit false

/-- Text is modelled as a list of characters (a `swoc::TextView`). -/
abbrev Str := List Char

/-- The character class used by C `isspace`, as invoked by the tokenizer's
`trim_if(&isspace)` call. -/
def isSpaceC (c : Char) : Bool :=
  c = ' ' || c = '\t' || c = '\n' || c = '\x0b' || c = '\x0c' || c = '\r'

/-- Case-insensitive equality of tokens, modelling `strcasecmp(a, b) == 0`
(ASCII case folding). -/
def ciEq (a b : Str) : Bool :=
  a.map Char.toLower == b.map Char.toLower

/-- Modelled from the spec: `TextView::take_prefix_at(c)` (libswoc, not under
`src/`) splits the view at the first occurrence of `c`; the prefix before the
separator is returned and the view becomes the text after the separator.  If
`c` does not occur, the whole view is returned and the view becomes empty. -/
def take_prefix_at (c : Char) (s : Str) : Str × Str :=
  match s.findIdx? (fun x => x == c) with
  | some i => (s.take i, s.drop (i + 1))
  | none => (s, [])

theorem take_prefix_at_snd_lt (c : Char) (s : Str) (h : s ≠ []) :
    (take_prefix_at c s).2.length < s.length := by
  have hlen : 0 < s.length := List.length_pos.mpr h
  unfold take_prefix_at
  cases hf : s.findIdx? (fun x => x == c) with
  | none => simpa using hlen
  | some i =>
    simp only [List.length_drop]
    omega

/-- Scan of `Table::token`'s while-loop.  The source locates the next
character of interest with `find_first_of("\x22,")` and dispatches on it:
a quote toggles `in_quote_p`, a separator inside quotes is skipped, a
separator outside quotes ends the field, and end of line ends the field.
Characters that are neither are skipped by `find_first_of`; scanning them
one at a time computes the same ending index.  The result is the index at
which the field ends (the separator's index, or the line length). -/
def scanTok : Str → Bool → Nat
  | [], _ => 0
  | c :: rest, q =>
    if c = '"' then scanTok rest (!q) + 1
    else if c = ',' then
      (if q then scanTok rest q + 1 else 0)
    else scanTok rest q + 1

/-- Index at which the first field of `line` ends (`Table::token`'s `idx`
after the scan loop, clamped to the line length). -/
def tokenEnd (line : Str) : Nat := scanTok line false

/-- Leading-whitespace trim (one side of `TextView::trim_if(&isspace)`). -/
def ltrimSpace (s : Str) : Str := s.dropWhile isSpaceC

/-- Both-sided whitespace trim, modelling `TextView::trim_if(&isspace)`:
all leading and trailing characters satisfying `isspace` are removed. -/
def trimSpace (s : Str) : Str :=
  ((s.dropWhile isSpaceC).reverse.dropWhile isSpaceC).reverse

/-- Remove one leading quote character if present. -/
def dropLeadQuote (s : Str) : Str :=
  match s with
  | [] => []
  | c :: t => if c = '"' then t else c :: t

/-- Remove one trailing quote character if present. -/
def dropTrailQuote (s : Str) : Str :=
  (dropLeadQuote s.reverse).reverse

/-- Modelled from the spec: `TextView::trim(c)` (libswoc, not under `src/`)
as used by the tokenizer on the quote character; per the specification the
extracted field is trimmed "of one leading and one trailing literal quote
character if present". -/
def trimQuote (s : Str) : Str := dropTrailQuote (dropLeadQuote s)

/-- The tokenizer `Table::token`: scan for the field end with `scanTok`,
clip the field (`line.take_prefix(idx)`, which also consumes the separator
following the field), then trim whitespace and one pair of quotes. -/
def Table.token (line : Str) : Str × Str :=
  let idx := tokenEnd line
  (trimQuote (trimSpace (line.take idx)), line.drop (idx + 1))

/-- The raw (untrimmed) field clipped from the front of the line. -/
def rawField (line : Str) : Str := line.take (tokenEnd line)

/-- A column descriptor: `Table::Property`'s bookkeeping data.  `size` is the
variant's `size()`; `idx` and `offset` are assigned by
`Table::add_column` via `assign_idx` / `assign_offset`. -/
structure Property where
  size : Nat
  idx : Nat
  offset : Nat
deriving DecidableEq, Repr

instance : Inhabited Property := ⟨⟨0, 0, 0⟩⟩

/-- The layout-relevant state of `Table`: the running row size `_size` and
the ordered column list `_columns`. -/
structure Table where
  _size : Nat
  _columns : List Property
deriving DecidableEq, Repr

/-- A freshly constructed `Table`. -/
def Table.empty : Table := ⟨0, []⟩

/-- The body of `Table::add_column`: the new column gets
`offset = _size` and `idx = _columns.size()`, then `_size += col->size()`
and the column is appended.  Only the column's size is relevant to layout,
so the argument is the new column's `size()`. -/
def Table.add_column (t : Table) (sz : Nat) : Table :=
  { _size := t._size + sz
  , _columns := t._columns ++ [⟨sz, t._columns.length, t._size⟩] }

/-- Register a list of column sizes in order, starting from an empty table. -/
def Table.ofSizes (ss : List Nat) : Table :=
  ss.foldl Table.add_column Table.empty

/-- Column `i` of a table (`Table::column`), with a default for out-of-range
indices to keep statements total. -/
def Table.colAt (t : Table) (i : Nat) : Property :=
  t._columns.getD i default

/-- Sub-span of a row for a property at byte offset `off`: the body of
`Table::Row::span_for`, which is `MemSpan{_data}.remove_prefix(prop.offset())`
— the row bytes from the offset to the end of the row (the source does not
clip the result to the property's size). -/
def Table.Row.span_for (row : List Nat) (off : Nat) : List Nat := row.drop off

/-- Split a token on the secondary separator `;`, modelling the
`while (token) { auto tag = token.take_prefix_at(';'); ... }` loop of
`FlagGroupProperty::parse`.  The recursion is driven by a fuel counter (each
iteration consumes at least one character, so `s.length` fuel suffices);
this keeps the definition computable by the kernel. -/
def splitSemisGo : Nat → Str → List Str
  | _, [] => []
  | 0, _ :: _ => []
  | fuel + 1, c :: s =>
    (take_prefix_at ';' (c :: s)).1 :: splitSemisGo fuel (take_prefix_at ';' (c :: s)).2

/-- The list of `;`-separated sub-tokens of a token. -/
def splitSemis (s : Str) : List Str := splitSemisGo s.length s

/-- Position of the first tag matching `tag` case-insensitively: the value
of the counter `j` in `FlagGroupProperty::parse`'s inner loop after it runs
(match position on a hit, `tags.length` when nothing matched). -/
def findTag (tags : List Str) (tag : Str) : Nat :=
  match tags with
  | [] => 0
  | key :: rest => if ciEq key tag then 0 else findTag rest tag + 1

/-- Set bit `j` in a byte span: `span[j/8] |= (byte{1} << (j % 8))`. -/
def setBitAt (span : List Nat) (j : Nat) : List Nat :=
  span.set (j / 8) (span.getD (j / 8) 0 ||| (1 <<< (j % 8)))

/-- The sub-token loop of `FlagGroupProperty::parse`: for each sub-token,
find its position `j` among the tags; at a matching position the bit is set
(the code sets it inside the search loop just before `break`).  The source
then tests `if (j > _tags.size())` to report an unrecognized tag and fail
— the test is kept verbatim here, including its off-by-one (after a failed
search `j == _tags.size()`, so the branch never fires). -/
def FlagGroupProperty.parseLoop (tags : List Str) : List Str → List Nat → Bool × List Nat
  | [], span => (true, span)
  | tag :: rest, span =>
    let j := findTag tags tag
    let span' := if j < tags.length then setBitAt span j else span
    if j > tags.length then (false, span')
    else FlagGroupProperty.parseLoop tags rest span'

/-- The body of `FlagGroupProperty::parse`: the sentinel token `-` succeeds
immediately without touching the span; otherwise the span is zeroed
(`memset(span, 0)`) and the `;`-separated sub-tokens are processed. -/
def FlagGroupProperty.parse (tags : List Str) (token : Str) (span : List Nat) :
    Bool × List Nat :=
  if token = "-".toList then (true, span)
  else FlagGroupProperty.parseLoop tags (splitSemis token) (span.map fun _ => 0)

/-- The body of `FlagGroupProperty::is_set`: read the row's span for this
property (`span_for`, i.e. the bytes from `off` on) and test bit
`flag_idx`: `(sp[flag_idx/8] >> (flag_idx%8)) & byte{1} != 0`. -/
def FlagGroupProperty.is_set (off flag_idx : Nat) (row : List Nat) : Bool :=
  (((Table.Row.span_for row off).getD (flag_idx / 8) 0 >>> (flag_idx % 8)) &&& 1) != 0

/-- The `find_if` search of `TagProperty::parse`: position of the first
stored tag equal to `token` under `strcasecmp`. -/
def TagProperty.findSpot (tags : List Str) (token : Str) : Option Nat :=
  match tags with
  | [] => none
  | tag :: rest =>
    if ciEq token tag then some 0
    else (TagProperty.findSpot rest token).map (· + 1)

/-- The dictionary step of `TagProperty::parse`: a known token keeps the
dictionary and yields its position; an unknown token is appended
(`_tags.push_back(token)`) and yields the new last position
(`spot - _tags.begin()`). -/
def TagProperty.parseIdx (tags : List Str) (token : Str) : Nat × List Str :=
  match TagProperty.findSpot tags token with
  | some i => (i, tags)
  | none => (tags.length, tags ++ [token])

/-- The body of `TagProperty::parse`: always succeeds; the byte written by
`span.rebind<uint8_t>()[0] = spot - _tags.begin()` is the dictionary index
narrowed to `uint8_t`, i.e. reduced modulo 256. -/
def TagProperty.parse (tags : List Str) (token : Str) : Bool × Nat × List Str :=
  (true, (TagProperty.parseIdx tags token).1 % 256, (TagProperty.parseIdx tags token).2)

/-- The dictionary state of a `TagProperty` column after a sequence of
`parse` calls (one per row parsed on that column), starting from `tags`. -/
def TagProperty.parseAll (tags : List Str) (toks : List Str) : List Str :=
  toks.foldl (fun st tok => (TagProperty.parseIdx st tok).2) tags

/-- Modelled from the spec: `FlagProperty::parse` is declared in the source
but its definition is not under `src/`; per the specification, "parse
succeeds iff token matches one of two recognized literal strings ...;
writes a single boolean byte.  Any other token is a parse failure."  The
two literals are the constructor-fixed accept and reject strings. -/
def FlagProperty.parse (accept reject : Str) (token : Str) (span : List Nat) :
    Bool × List Nat :=
  if token = accept then (true, [1])
  else if token = reject then (true, [0])
  else (false, span)

/-- A registered column as `Table::parse` uses it: its `size()` and its
`parse` member, a function from the token and the column's byte span to the
success flag and the new span contents.  (`needs_localized_token` /
`localize` copy the token's backing bytes without changing its value, so
localization is the identity in this value-level model.) -/
structure ColFn where
  size : Nat
  parse : Str → List Nat → Bool × List Nat

/-- Total row size: the `_size` accumulated by `add_column`, i.e. the sum of
the registered column sizes. -/
def sumSizes (cols : List ColFn) : Nat := (cols.map ColFn.size).sum

/-- The per-line column loop of `Table::parse`: for each registered column
in order, extract the next token, call the column's parse on the sub-span
`MemSpan{span.data(), col->size()}` at the running offset, splice the
written bytes back into the row, and advance the offset by the column's
size (`span.remove_prefix(col->size())`).  Returns the final row bytes, the
per-column success flags (a failed parse is only diagnosed, the loop
continues), and the remaining line cursor. -/
def Table.parseCols (cols : List ColFn) (line : Str) (row : List Nat) (off : Nat) :
    List Nat × List Bool × Str :=
  match cols with
  | [] => (row, [], line)
  | c :: cs =>
    let p := Table.token line
    let r := c.parse p.1 ((row.drop off).take c.size)
    let row' := row.take off ++ r.2 ++ row.drop (off + c.size)
    let rest := Table.parseCols cs p.2 row' (off + c.size)
    (rest.1, r.1 :: rest.2.1, rest.2.2)

/-- Result of `Table::parse`: the `(range token, row)` pairs handed to
`_space.mark`, the number of invalid-range diagnostics (lines skipped), the
number of per-field diagnostics, and the returned success flag. -/
structure ParseOut where
  rows : List (Str × List Nat)
  sdiag : Nat
  fdiag : Nat
  ok : Bool
deriving DecidableEq, Repr

/-- The line loop of `Table::parse`, with a fuel counter driving the
recursion (each iteration consumes at least one character of `src`, so
`src.length` fuel suffices).  Per line: split off the line at `\n`, split
off the leading range token at `,`; an invalid range is diagnosed and the
line skipped; otherwise a zeroed row of `_size` bytes is allocated (the
zeroing is modelled from the spec — "allocates a zeroed byte span of total
row size from the bump allocator" — since `MemArena` is not under `src/`),
the columns are parsed into it, and the row is marked for the range.  After
the loop the function returns `true` unconditionally. -/
def Table.parseGo (rangeOk : Str → Bool) (cols : List ColFn) : Nat → Str → ParseOut
  | _, [] => ⟨[], 0, 0, true⟩
  | 0, _ :: _ => ⟨[], 0, 0, true⟩
  | fuel + 1, c :: src =>
    let s := take_prefix_at '\n' (c :: src)
    let r := take_prefix_at ',' s.1
    let rest := Table.parseGo rangeOk cols fuel s.2
    if rangeOk r.1 then
      let pr := Table.parseCols cols r.2 (List.replicate (sumSizes cols) 0) 0
      ⟨(r.1, pr.1) :: rest.rows, rest.sdiag, (pr.2.1.count false) + rest.fdiag, rest.ok⟩
    else
      ⟨rest.rows, rest.sdiag + 1, rest.fdiag, rest.ok⟩

/-- The body of `Table::parse`, abstracted over the validity of a range
token (`IPRange` construction is an external collaborator): `rangeOk rt`
models `!IPRange{rt}.empty()`. -/
def Table.parse (rangeOk : Str → Bool) (cols : List ColFn) (src : Str) : ParseOut :=
  Table.parseGo rangeOk cols src.length src

/-- Specification-side line splitter: the lines `Table::parse` iterates
over, written as a plain recursion for comparison with the loop. -/
def splitLinesGo : Nat → Str → List Str
  | _, [] => []
  | 0, _ :: _ => []
  | fuel + 1, c :: s =>
    (take_prefix_at '\n' (c :: s)).1 :: splitLinesGo fuel (take_prefix_at '\n' (c :: s)).2

/-- The list of lines of a source text. -/
def splitLines (s : Str) : List Str := splitLinesGo s.length s

/-- Specification-side handling of one line: `none` when the leading range
token is invalid (line skipped), otherwise the marked `(range token, row)`
pair. -/
def lineSpec (rangeOk : Str → Bool) (cols : List ColFn) (line : Str) :
    Option (Str × List Nat) :=
  let r := take_prefix_at ',' line
  if rangeOk r.1 then
    some (r.1, (Table.parseCols cols r.2 (List.replicate (sumSizes cols) 0) 0).1)
  else none

/-- Specification-side description of `Table::parse`'s result, following the
spec's words: every line is processed; a line whose leading range token is
invalid is skipped with one structural diagnostic and contributes no row; a
valid line contributes its `(range token, row)` pair and one field
diagnostic per failed column parse; the overall result is success. -/
def parseSpec (rangeOk : Str → Bool) (cols : List ColFn) (src : Str) : ParseOut :=
  ⟨(splitLines src).filterMap (lineSpec rangeOk cols),
   ((splitLines src).filter (fun line => !(rangeOk (take_prefix_at ',' line).1))).length,
   ((splitLines src).map (fun line =>
     if rangeOk (take_prefix_at ',' line).1 then
       ((Table.parseCols cols (take_prefix_at ',' line).2
         (List.replicate (sumSizes cols) 0) 0).2.1.count false)
     else 0)).sum,
   true⟩

/-- Number of quote characters in a piece of text. -/
def countQuotes (s : Str) : Nat := s.countP (fun c => c == '"')

/-- The `k`-th token the column loop extracts from a line (token 0 is the
first `Table::token` call's result). -/
def nthToken (line : Str) : Nat → Str
  | 0 => (Table.token line).1
  | k + 1 => nthToken (Table.token line).2 k

/-- The line cursor after `k` tokens have been extracted from it. -/
def dropTokN (line : Str) : Nat → Str
  | 0 => line
  | k + 1 => dropTokN (Table.token line).2 k

/-- A `FlagGroupProperty` with the given tags as a registered column:
`size()` is `sizeof(uint8_t) = 1` and parsing is `FlagGroupProperty::parse`. -/
def fgCol (tags : List Str) : ColFn := ⟨1, FlagGroupProperty.parse tags⟩

/-- The tag list of the example's flag group column. -/
def tagsPDI : List Str := ["prod".toList, "dmz".toList, "internal".toList]

theorem foldl_add_column (ss : List Nat) (t : Table) :
    ss.foldl Table.add_column t =
      ⟨t._size + ss.sum,
       t._columns ++ (List.range ss.length).map
         (fun i => ⟨ss.getD i 0, t._columns.length + i, t._size + (ss.take i).sum⟩)⟩ := by
  induction ss generalizing t with
  | nil => simp
  | cons s ss ih =>
    simp only [List.foldl_cons, ih, Table.add_column]
    refine congrArg₂ Table.mk (by simp [List.sum_cons]; omega) ?_
    rw [List.length_cons, List.range_succ_eq_map, List.map_cons, List.map_map]
    simp only [List.append_assoc, List.singleton_append, List.getD_cons_zero,
      List.take_zero, List.sum_nil, Nat.add_zero, List.length_append, List.length_cons]
    congr 1
    refine congrArg (List.cons _) (List.map_congr_left fun a ha => ?_)
    simp only [Function.comp, List.getD_cons_succ, List.take_succ_cons, List.sum_cons,
      Property.mk.injEq, List.length_nil]
    exact ⟨trivial, by omega, by omega⟩

/-- C1: for every sequence of registered column sizes, the i-th column gets
column index i and byte offset equal to the sum of the sizes of columns
0..i-1; consecutive offsets satisfy offset(i+1) = offset(i) + size(i); and
the table's row size is the sum of all registered column sizes. -/
theorem c1_add_column_layout (ss : List Nat) :
    (Table.ofSizes ss)._size = ss.sum ∧
    (Table.ofSizes ss)._columns.length = ss.length ∧
    (∀ i, i < ss.length →
      ((Table.ofSizes ss).colAt i).idx = i ∧
      ((Table.ofSizes ss).colAt i).offset = (ss.take i).sum ∧
      ((Table.ofSizes ss).colAt i).size = ss.getD i 0) ∧
    (∀ i, i + 1 < ss.length →
      ((Table.ofSizes ss).colAt (i + 1)).offset =
        ((Table.ofSizes ss).colAt i).offset + ((Table.ofSizes ss).colAt i).size) := by
  have hT := foldl_add_column ss Table.empty
  have hcol : ∀ i, i < ss.length →
      (Table.ofSizes ss).colAt i = ⟨ss.getD i 0, i, (ss.take i).sum⟩ := by
    intro i hi
    unfold Table.colAt Table.ofSizes
    rw [hT]
    simp only [Table.empty, List.nil_append, List.length_nil, Nat.zero_add]
    rw [List.getD_eq_getElem?_getD, List.getElem?_map, List.getElem?_range hi]
    rfl
  have hsum : ∀ i, i < ss.length → (ss.take (i + 1)).sum = (ss.take i).sum + ss.getD i 0 := by
    intro i hi
    rw [List.sum_take_succ ss i hi, List.getD_eq_getElem ss 0 hi]
  refine ⟨?_, ?_, ?_, ?_⟩
  · unfold Table.ofSizes; rw [hT]; simp [Table.empty]
  · unfold Table.ofSizes; rw [hT]; simp [Table.empty]
  · intro i hi
    rw [hcol i hi]
    exact ⟨rfl, rfl, rfl⟩
  · intro i hi
    rw [hcol i (by omega), hcol (i + 1) hi, hsum i (by omega)]

/-- Witness for C1 at the example's column sizes [1, 1, 1, 16]
(Tag, Tag, FlagGroup, String). -/
theorem c1_add_column_layout_witness :
    (Table.ofSizes [1, 1, 1, 16])._size = 19 ∧
    ((Table.ofSizes [1, 1, 1, 16]).colAt 2).idx = 2 ∧
    ((Table.ofSizes [1, 1, 1, 16]).colAt 2).offset = 2 ∧
    ((Table.ofSizes [1, 1, 1, 16]).colAt 3).offset =
      ((Table.ofSizes [1, 1, 1, 16]).colAt 2).offset +
        ((Table.ofSizes [1, 1, 1, 16]).colAt 2).size := by
  have h := c1_add_column_layout [1, 1, 1, 16]
  refine ⟨h.1.trans (by decide), (h.2.2.1 2 (by decide)).1,
    ((h.2.2.1 2 (by decide)).2.1).trans (by decide), h.2.2.2 2 (by decide)⟩

/-- C2: evaluation of `FlagGroupProperty::parse` at a token whose sub-token
matches no constructed tag.  The code returns success (with no bit set)
because its unrecognized-tag test `j > _tags.size()` can never hold (after
a failed search `j == _tags.size()`), so the claimed parse failure does not
occur; the diagnostic-and-fail branch in the source is unreachable. -/
theorem c2_unknown_tag_accepted :
    FlagGroupProperty.parse tagsPDI ("bogus".toList) [0] = (true, [0]) := by decide

/-- C7 counterexample: with the first two registered columns of sizes 1 and
1, `span_for` on column 0 of a 2-byte row returns a span of length 2, not
the claimed `size() = 1` — `Row::span_for` only removes the offset prefix
and does not clip the span to the property's size. -/
theorem c7_span_for_counterexample :
    (Table.Row.span_for [5, 7] ((Table.ofSizes [1, 1]).colAt 0).offset).length ≠
      ((Table.ofSizes [1, 1]).colAt 0).size := by decide

/-- C7 amended: `span_for` returns the row's byte suffix starting at the
property's offset, of length `row_size - offset`; its first `size()` bytes
are exactly the property's field `[offset, offset + size)`. -/
theorem c7_span_for_amended (row : List Nat) (off sz : Nat) (h : off + sz ≤ row.length) :
    (Table.Row.span_for row off).length = row.length - off ∧
    (Table.Row.span_for row off).take sz =
      (List.range sz).map (fun i => row.getD (off + i) 0) := by
  constructor
  · simp [Table.Row.span_for]
  · apply List.ext_getElem
    · simp only [Table.Row.span_for, List.length_take, List.length_drop,
        List.length_map, List.length_range]
      omega
    · intro i h1 h2
      simp only [Table.Row.span_for, List.getElem_take, List.getElem_drop,
        List.getElem_map, List.getElem_range]
      rw [List.getD_eq_getElem row 0 (by simp at h2; omega)]

/-- Witness for C7's amended statement on the row [5, 7] at offset 1, size 1. -/
theorem c7_span_for_amended_witness :
    1 + 1 ≤ ([5, 7] : List Nat).length ∧
    (Table.Row.span_for [5, 7] 1).length = 1 ∧
    (Table.Row.span_for [5, 7] 1).take 1 = [7] := by
  refine ⟨by decide, ((c7_span_for_amended [5, 7] 1 1 (by decide)).1).trans (by decide),
    ((c7_span_for_amended [5, 7] 1 1 (by decide)).2).trans (by decide)⟩

theorem scanTok_cons_quote (rest : Str) (q : Bool) :
    scanTok ('"' :: rest) q = scanTok rest (!q) + 1 := by simp [scanTok]

theorem scanTok_cons_comma_true (rest : Str) :
    scanTok (',' :: rest) true = scanTok rest true + 1 := by simp [scanTok]

theorem scanTok_cons_comma_false (rest : Str) :
    scanTok (',' :: rest) false = 0 := by simp [scanTok]

theorem scanTok_cons_other (c : Char) (rest : Str) (q : Bool) (h1 : c ≠ '"') (h2 : c ≠ ',') :
    scanTok (c :: rest) q = scanTok rest q + 1 := by simp [scanTok, h1, h2]

theorem countQuotes_cons_quote (l : Str) : countQuotes ('"' :: l) = countQuotes l + 1 := by
  simp [countQuotes]

theorem countQuotes_cons_other (c : Char) (l : Str) (h : c ≠ '"') :
    countQuotes (c :: l) = countQuotes l := by
  simp [countQuotes, h]

/-- The scan loop's invariant: it stops either at the end of the line or at
a separator whose preceding text contains a number of quotes matching the
initial quote state (an even number when the scan starts outside quotes). -/
theorem scanTok_spec (cs : Str) (q : Bool) :
    scanTok cs q ≤ cs.length ∧
    (scanTok cs q = cs.length ∨
      (cs.getD (scanTok cs q) ' ' = ',' ∧
       countQuotes (cs.take (scanTok cs q)) % 2 = (if q then 1 else 0))) := by
  induction cs generalizing q with
  | nil => exact ⟨Nat.le_refl 0, Or.inl rfl⟩
  | cons c rest ih =>
    by_cases hc : c = '"'
    · subst hc
      have h := ih (!q)
      rw [scanTok_cons_quote]
      refine ⟨by simp only [List.length_cons]; omega, ?_⟩
      rcases h.2 with h2 | ⟨hg, hp⟩
      · left; simp only [List.length_cons]; omega
      · right
        refine ⟨by simpa using hg, ?_⟩
        rw [List.take_succ_cons, countQuotes_cons_quote]
        cases q <;> simp at hp ⊢ <;> omega
    · by_cases hc2 : c = ','
      · subst hc2
        cases q with
        | true =>
          have h := ih true
          rw [scanTok_cons_comma_true]
          refine ⟨by simp only [List.length_cons]; omega, ?_⟩
          rcases h.2 with h2 | ⟨hg, hp⟩
          · left; simp only [List.length_cons]; omega
          · right
            refine ⟨by simpa using hg, ?_⟩
            rw [List.take_succ_cons, countQuotes_cons_other _ _ hc]
            simpa using hp
        | false =>
          rw [scanTok_cons_comma_false]
          exact ⟨by simp only [List.length_cons]; omega,
            Or.inr ⟨rfl, by simp [countQuotes]⟩⟩
      · have h := ih q
        rw [scanTok_cons_other c rest q hc hc2]
        refine ⟨by simp only [List.length_cons]; omega, ?_⟩
        rcases h.2 with h2 | ⟨hg, hp⟩
        · left; simp only [List.length_cons]; omega
        · right
          refine ⟨by simpa using hg, ?_⟩
          rw [List.take_succ_cons, countQuotes_cons_other _ _ hc]
          exact hp

/-- C4: the tokenizer ends a field only at the end of the line or at a
separator preceded by an even number of quote characters (i.e. a separator
outside any quoted region; a quoted `,` is ordinary text); the cursor is
advanced past the consumed field and its separator; and in particular the
line `"a,b",c` tokenizes as exactly the two fields `a,b` and `c`. -/
theorem c4_tokenizer_quotes (line : Str) :
    tokenEnd line ≤ line.length ∧
    (tokenEnd line = line.length ∨
      (line.getD (tokenEnd line) ' ' = ',' ∧
       countQuotes (line.take (tokenEnd line)) % 2 = 0)) ∧
    (Table.token line).2 = line.drop (tokenEnd line + 1) ∧
    Table.token ("\"a,b\",c".toList) = ("a,b".toList, "c".toList) ∧
    Table.token ("c".toList) = ("c".toList, []) := by
  have h := scanTok_spec line false
  refine ⟨h.1, ?_, rfl, by decide, by decide⟩
  simpa using h.2

theorem dropLeadQuote_eq_self (s : Str) (h : s.head? ≠ some '"') : dropLeadQuote s = s := by
  cases s with
  | nil => rfl
  | cons c t =>
    simp only [List.head?_cons, ne_eq, Option.some.injEq] at h
    simp [dropLeadQuote, h]

theorem trimSpace_decomp (s : Str) :
    ∃ a b, s = a ++ trimSpace s ++ b ∧ (∀ c ∈ a, isSpaceC c) ∧ (∀ c ∈ b, isSpaceC c) := by
  refine ⟨s.takeWhile isSpaceC, ((s.dropWhile isSpaceC).reverse.takeWhile isSpaceC).reverse,
    ?_, ?_, ?_⟩
  · conv_lhs => rw [← List.takeWhile_append_dropWhile (p := isSpaceC) (l := s)]
    rw [List.append_assoc]
    congr 1
    conv_lhs => rw [← List.reverse_reverse (s.dropWhile isSpaceC),
      ← List.takeWhile_append_dropWhile (p := isSpaceC) (l := (s.dropWhile isSpaceC).reverse)]
    rw [List.reverse_append, trimSpace]
  · intro c hc
    exact List.mem_takeWhile_imp hc
  · intro c hc
    exact List.mem_takeWhile_imp (List.mem_reverse.mp hc)

/-- C8: the token returned for a field is the raw field first trimmed of
leading and trailing whitespace (the removed ends consist of whitespace
characters only) and then of exactly one leading and one trailing literal
quote character when present — never more than one from either end, and
none when the corresponding end is not a quote. -/
theorem c8_token_trimming (line : Str) :
    (∃ a b, rawField line = a ++ trimSpace (rawField line) ++ b ∧
      (∀ c ∈ a, isSpaceC c) ∧ (∀ c ∈ b, isSpaceC c)) ∧
    (Table.token line).1 = dropTrailQuote (dropLeadQuote (trimSpace (rawField line))) ∧
    dropLeadQuote ('"' :: line) = line ∧
    (line.head? ≠ some '"' → dropLeadQuote line = line) ∧
    dropTrailQuote (line ++ ['"']) = line ∧
    (line.getLast? ≠ some '"' → dropTrailQuote line = line) := by
  refine ⟨trimSpace_decomp _, rfl, by simp [dropLeadQuote], dropLeadQuote_eq_self line, ?_, ?_⟩
  · simp [dropTrailQuote, dropLeadQuote, List.reverse_append]
  · intro h
    rw [dropTrailQuote, dropLeadQuote_eq_self _ (by rw [List.head?_reverse]; exact h),
      List.reverse_reverse]

/-- Witness for C8 at the line `""ab"",c`: the raw field `""ab""` trims to
`"ab"` (exactly one quote removed from each end, the inner quotes kept),
and the no-quote implications hold at the field `ab`. -/
theorem c8_token_trimming_witness :
    (Table.token ("\"\"ab\"\",c".toList)).1 = "\"ab\"".toList ∧
    dropLeadQuote ("ab".toList) = "ab".toList ∧
    dropTrailQuote ("ab".toList) = "ab".toList := by
  refine ⟨((c8_token_trimming ("\"\"ab\"\",c".toList)).2.1).trans (by decide),
    (c8_token_trimming ("ab".toList)).2.2.2.1 (by decide),
    (c8_token_trimming ("ab".toList)).2.2.2.2.2 (by decide)⟩

theorem ciEq_symm (a b : Str) (h : ciEq a b = true) : ciEq b a = true := by
  simp only [ciEq, beq_iff_eq] at h ⊢
  exact h.symm

theorem ciEq_of_eq_map (t1 t2 g : Str) (h : ciEq t1 t2 = true) : ciEq t1 g = ciEq t2 g := by
  simp only [ciEq, beq_iff_eq] at h ⊢
  rw [h]

theorem findSpot_congr (tags : List Str) (t1 t2 : Str) (h : ciEq t1 t2 = true) :
    TagProperty.findSpot tags t1 = TagProperty.findSpot tags t2 := by
  induction tags with
  | nil => rfl
  | cons g rest ih =>
    simp only [TagProperty.findSpot, ciEq_of_eq_map t1 t2 g h, ih]

theorem findSpot_eq_none_iff (tags : List Str) (t : Str) :
    TagProperty.findSpot tags t = none ↔ ∀ g ∈ tags, ciEq t g = false := by
  induction tags with
  | nil => simp [TagProperty.findSpot]
  | cons g rest ih =>
    simp only [TagProperty.findSpot, List.mem_cons]
    by_cases hg : ciEq t g = true
    · simp [hg]
    · rw [Bool.not_eq_true] at hg
      simp only [hg, Bool.false_eq_true, if_false]
      have hmap : (Option.map (fun x => x + 1) (TagProperty.findSpot rest t) = none) ↔
          TagProperty.findSpot rest t = none := by
        cases TagProperty.findSpot rest t <;> simp
      rw [hmap, ih]
      constructor
      · intro hr x hx
        rcases hx with rfl | hx
        · exact hg
        · exact hr x hx
      · intro hr x hx
        exact hr x (Or.inr hx)

theorem findSpot_append_fresh (tags : List Str) (t1 t2 : Str)
    (hn : TagProperty.findSpot tags t2 = none) (h12 : ciEq t2 t1 = true) :
    TagProperty.findSpot (tags ++ [t1]) t2 = some tags.length := by
  induction tags with
  | nil => simp [TagProperty.findSpot, h12]
  | cons g rest ih =>
    simp only [TagProperty.findSpot] at hn ⊢
    by_cases hg : ciEq t2 g = true
    · simp [hg] at hn
    · rw [Bool.not_eq_true] at hg
      simp only [hg, if_neg] at hn ⊢
      simp only [Bool.false_eq_true, if_false] at hn ⊢
      cases hfs : TagProperty.findSpot rest t2 with
      | none =>
        have h2 := ih hfs
        rw [show rest.append [t1] = rest ++ [t1] from rfl, h2]
        simp
      | some i => simp [hfs] at hn

theorem ciEq_refl (a : Str) : ciEq a a = true := by simp [ciEq]

theorem findSpot_mono (ext : List Str) (t : Str) (tags : List Str) : ∀ (i : Nat),
    TagProperty.findSpot tags t = some i →
    TagProperty.findSpot (tags ++ ext) t = some i := by
  induction tags with
  | nil => intro i h; simp [TagProperty.findSpot] at h
  | cons g rest ih =>
    intro i h
    simp only [TagProperty.findSpot, List.cons_append, List.append_eq] at h ⊢
    by_cases hg : ciEq t g = true
    · simp only [hg, if_true] at h ⊢
      exact h
    · rw [Bool.not_eq_true] at hg
      simp only [hg, Bool.false_eq_true, if_false] at h ⊢
      cases hr : TagProperty.findSpot rest t with
      | none => rw [hr] at h; simp at h
      | some j =>
        rw [hr] at h
        rw [ih j hr]
        exact h

theorem parseIdx_state (tags : List Str) (t : Str) :
    ∃ ext, (TagProperty.parseIdx tags t).2 = tags ++ ext := by
  unfold TagProperty.parseIdx
  cases h : TagProperty.findSpot tags t with
  | none => exact ⟨[t], rfl⟩
  | some i => exact ⟨[], by simp⟩

theorem parseAll_state (mids : List Str) : ∀ tags : List Str,
    ∃ ext, TagProperty.parseAll tags mids = tags ++ ext := by
  induction mids with
  | nil => intro tags; exact ⟨[], by simp [TagProperty.parseAll]⟩
  | cons m ms ih =>
    intro tags
    obtain ⟨e1, he1⟩ := parseIdx_state tags m
    obtain ⟨e2, he2⟩ := ih (TagProperty.parseIdx tags m).2
    refine ⟨e1 ++ e2, ?_⟩
    rw [show TagProperty.parseAll tags (m :: ms) =
      TagProperty.parseAll (TagProperty.parseIdx tags m).2 ms from rfl, he2, he1,
      List.append_assoc]

theorem parseIdx_of_findSpot_some (tags : List Str) (t : Str) (i : Nat)
    (h : TagProperty.findSpot tags t = some i) :
    TagProperty.parseIdx tags t = (i, tags) := by
  unfold TagProperty.parseIdx
  rw [h]

theorem parseIdx_finds_self (tags : List Str) (t : Str) :
    TagProperty.findSpot (TagProperty.parseIdx tags t).2 t
      = some (TagProperty.parseIdx tags t).1 := by
  unfold TagProperty.parseIdx
  cases h : TagProperty.findSpot tags t with
  | some i => simpa using h
  | none =>
    simp only
    exact findSpot_append_fresh tags t t h (ciEq_refl t)

/-- C5: on one `TagProperty` column, over any sequence of parses: a token
case-insensitively equal to a previously parsed token is assigned the same
stored index the earlier token got — no matter how many other tokens were
parsed on the column in between — and leaves the dictionary unchanged;
while a token case-insensitively distinct from every token previously seen
is assigned the next unused index, the number of distinct tokens seen
before it, and is appended to the column-local dictionary. -/
theorem c5_tag_dictionary (tags mids : List Str) (t1 t2 : Str) :
    (ciEq t1 t2 = true →
      TagProperty.parseIdx
          (TagProperty.parseAll (TagProperty.parseIdx tags t1).2 mids) t2 =
        ((TagProperty.parseIdx tags t1).1,
         TagProperty.parseAll (TagProperty.parseIdx tags t1).2 mids)) ∧
    ((∀ g ∈ tags, ciEq t1 g = false) →
      TagProperty.parseIdx tags t1 = (tags.length, tags ++ [t1])) := by
  constructor
  · intro h
    obtain ⟨ext, hext⟩ := parseAll_state mids (TagProperty.parseIdx tags t1).2
    have h1 : TagProperty.findSpot
        (TagProperty.parseAll (TagProperty.parseIdx tags t1).2 mids) t1
        = some (TagProperty.parseIdx tags t1).1 := by
      rw [hext]
      exact findSpot_mono ext t1 _ _ (parseIdx_finds_self tags t1)
    have h2 : TagProperty.findSpot
        (TagProperty.parseAll (TagProperty.parseIdx tags t1).2 mids) t2
        = some (TagProperty.parseIdx tags t1).1 := by
      rw [← findSpot_congr _ t1 t2 h]
      exact h1
    exact parseIdx_of_findSpot_some _ t2 _ h2
  · intro h
    unfold TagProperty.parseIdx
    have h1 : TagProperty.findSpot tags t1 = none := (findSpot_eq_none_iff tags t1).mpr h
    simp [h1]

/-- Witness for C5: on an empty dictionary, `ASF` gets index 0 and is
stored; after the distinct token `ind` is parsed in between, the later
token `asf` (different casing of the first) still gets index 0 and leaves
the dictionary unchanged. -/
theorem c5_tag_dictionary_witness :
    ciEq ("ASF".toList) ("asf".toList) = true ∧
    TagProperty.parseIdx [] ("ASF".toList) = (0, ["ASF".toList]) ∧
    TagProperty.parseAll ["ASF".toList] ["ind".toList]
      = ["ASF".toList, "ind".toList] ∧
    TagProperty.parseIdx ["ASF".toList, "ind".toList] ("asf".toList)
      = (0, ["ASF".toList, "ind".toList]) := by
  refine ⟨by decide, ?_, by decide, ?_⟩
  · have h := (c5_tag_dictionary [] [] ("ASF".toList) ("asf".toList)).2 (by decide)
    simpa using h
  · exact (c5_tag_dictionary [] ["ind".toList] ("ASF".toList) ("asf".toList)).1 (by decide)

/-- C9: `FlagProperty` parse (modelled from the spec, the definition being
absent from `src/`) succeeds exactly when the token is one of the two
recognized literal strings, writing a single boolean byte (1 for the accept
literal, 0 for the reject literal); any other token is a parse failure. -/
theorem c9_flag_literals (accept reject token : Str) (span : List Nat) :
    ((FlagProperty.parse accept reject token span).1 = true ↔
      token = accept ∨ token = reject) ∧
    (token = accept → FlagProperty.parse accept reject token span = (true, [1])) ∧
    (token ≠ accept → token = reject →
      FlagProperty.parse accept reject token span = (true, [0])) ∧
    (token ≠ accept → token ≠ reject →
      FlagProperty.parse accept reject token span = (false, span)) := by
  unfold FlagProperty.parse
  by_cases h1 : token = accept
  · simp [h1]
  · by_cases h2 : token = reject
    · subst h2
      simp [h1]
    · simp [h1, h2]

/-- Witness for C9 with literals `Y`/`N`: token `Y` succeeds and writes the
true byte; token `x` fails. -/
theorem c9_flag_literals_witness :
    (FlagProperty.parse ("Y".toList) ("N".toList) ("Y".toList) [9]).1 = true ∧
    FlagProperty.parse ("Y".toList) ("N".toList) ("Y".toList) [9] = (true, [1]) ∧
    FlagProperty.parse ("Y".toList) ("N".toList) ("x".toList) [9] = (false, [9]) := by
  refine ⟨((c9_flag_literals ("Y".toList) ("N".toList) ("Y".toList) [9]).1).mpr (Or.inl rfl),
    (c9_flag_literals ("Y".toList) ("N".toList) ("Y".toList) [9]).2.1 rfl,
    (c9_flag_literals ("Y".toList) ("N".toList) ("x".toList) [9]).2.2.2
      (by decide) (by decide)⟩

/-- C10: `TagProperty` parse succeeds for every token (the empty token is
entered into the dictionary like any other), and the byte written is the
dictionary index reduced modulo 256: when 256 entries are already present,
a fresh token is stored with byte value 0, the same byte as the very first
token entered into an empty dictionary, while the dictionary itself grows
to 257 entries without error. -/
theorem c10_tag_byte_wraps (tags : List Str) (token : Str) :
    (TagProperty.parse tags token).1 = true ∧
    (TagProperty.parse [] []).2.2 = [[]] ∧
    (tags.length = 256 → (∀ g ∈ tags, ciEq token g = false) →
      (TagProperty.parse tags token).2.1 = 0 ∧
      (TagProperty.parse tags token).2.2.length = 257 ∧
      (TagProperty.parse [] token).2.1 = 0) := by
  refine ⟨rfl, rfl, ?_⟩
  intro h256 hfresh
  have h1 : TagProperty.findSpot tags token = none :=
    (findSpot_eq_none_iff tags token).mpr hfresh
  unfold TagProperty.parse TagProperty.parseIdx
  simp [h1, h256, TagProperty.findSpot]

set_option maxRecDepth 10000 in
/-- Witness for C10: a dictionary holding 256 entries plus the fresh token
`b` — the 257th distinct entry is stored with byte 0, like the first. -/
theorem c10_tag_byte_wraps_witness :
    (List.replicate 256 ("a".toList)).length = 256 ∧
    (∀ g ∈ List.replicate 256 ("a".toList), ciEq ("b".toList) g = false) ∧
    (TagProperty.parse (List.replicate 256 ("a".toList)) ("b".toList)).2.1 = 0 ∧
    (TagProperty.parse (List.replicate 256 ("a".toList)) ("b".toList)).2.2.length = 257 ∧
    (TagProperty.parse [] ("b".toList)).2.1 = 0 := by
  have hlen : (List.replicate 256 ("a".toList)).length = 256 := by simp
  have hfresh : ∀ g ∈ List.replicate 256 ("a".toList), ciEq ("b".toList) g = false := by
    intro g hg
    rw [List.eq_of_mem_replicate hg]
    decide
  have h := (c10_tag_byte_wraps (List.replicate 256 ("a".toList)) ("b".toList)).2.2 hlen hfresh
  exact ⟨hlen, hfresh, h.1, h.2.1, h.2.2⟩

theorem splitLinesGo_fuel (f1 : Nat) : ∀ (f2 : Nat) (s : Str), s.length ≤ f1 → s.length ≤ f2 →
    splitLinesGo f1 s = splitLinesGo f2 s := by
  induction f1 with
  | zero =>
    intro f2 s h1 h2
    have : s = [] := List.eq_nil_of_length_eq_zero (Nat.le_zero.mp h1)
    subst this
    cases f2 <;> rfl
  | succ f1 ih =>
    intro f2 s h1 h2
    cases s with
    | nil => cases f2 <;> rfl
    | cons c t =>
      cases f2 with
      | zero => simp at h2
      | succ f2 =>
        simp only [splitLinesGo]
        congr 1
        have hlt := take_prefix_at_snd_lt '\n' (c :: t) (by simp)
        simp only [List.length_cons] at h1 h2 hlt
        exact ih f2 (take_prefix_at '\n' (c :: t)).2 (by omega) (by omega)

theorem splitLines_cons (c : Char) (t : Str) :
    splitLines (c :: t) =
      (take_prefix_at '\n' (c :: t)).1 :: splitLines (take_prefix_at '\n' (c :: t)).2 := by
  unfold splitLines
  rw [show (c :: t).length = t.length + 1 from rfl]
  simp only [splitLinesGo]
  congr 1
  have hlt := take_prefix_at_snd_lt '\n' (c :: t) (by simp)
  simp only [List.length_cons] at hlt
  exact splitLinesGo_fuel t.length _ _ (by omega) (by omega)

/-- The line loop of `Table::parse` computes exactly the specification-side
description `parseSpec`, for any sufficient fuel. -/
theorem parseGo_spec (rangeOk : Str → Bool) (cols : List ColFn) :
    ∀ (fuel : Nat) (src : Str), src.length ≤ fuel →
      Table.parseGo rangeOk cols fuel src = parseSpec rangeOk cols src := by
  intro fuel
  induction fuel with
  | zero =>
    intro src h
    have : src = [] := List.eq_nil_of_length_eq_zero (Nat.le_zero.mp h)
    subst this
    rfl
  | succ fuel ih =>
    intro src h
    cases src with
    | nil => rfl
    | cons c t =>
      have hlt := take_prefix_at_snd_lt '\n' (c :: t) (by simp)
      have hrec := ih (take_prefix_at '\n' (c :: t)).2
        (by simp only [List.length_cons] at h hlt ⊢; omega)
      simp only [Table.parseGo, hrec, parseSpec, splitLines_cons c t]
      by_cases hr : rangeOk (take_prefix_at ',' (take_prefix_at '\n' (c :: t)).1).1 = true
      · simp [lineSpec, hr, List.filterMap_cons]
      · rw [Bool.not_eq_true] at hr
        simp [lineSpec, hr, List.filterMap_cons]

/-- C6 counterexample: a source whose single line has an invalid range
token.  The line is skipped with a structural diagnostic (`sdiag = 1`, no
row added), yet `Table::parse` still returns success — the claim that the
call fails when a structural error occurred is false (the source ends with
an unconditional `return true`). -/
theorem c6_parse_counterexample :
    (Table.parse (fun rt => rt == "10.1.1.0/24".toList) [] ("bogus,x".toList)).sdiag = 1 ∧
    (Table.parse (fun rt => rt == "10.1.1.0/24".toList) [] ("bogus,x".toList)).rows = [] ∧
    (Table.parse (fun rt => rt == "10.1.1.0/24".toList) [] ("bogus,x".toList)).ok = true := by
  decide

/-- C6 amended: `Table::parse` skips each line whose leading range token is
invalid (one structural diagnostic, no row or range added for that line)
and continues with the remaining lines; valid lines contribute their rows
in order, with per-field failures only counted as diagnostics; and the call
always returns success, even when structural errors occurred — neither
structural nor per-field errors affect the return value. -/
theorem c6_parse_amended (rangeOk : Str → Bool) (cols : List ColFn) (src : Str) :
    Table.parse rangeOk cols src = parseSpec rangeOk cols src ∧
    (Table.parse rangeOk cols src).ok = true := by
  have h := parseGo_spec rangeOk cols src.length src (Nat.le_refl _)
  exact ⟨h, by unfold Table.parse; rw [h]; rfl⟩

theorem sumSizes_cons (c : ColFn) (cs : List ColFn) :
    sumSizes (c :: cs) = c.size + sumSizes cs := by simp [sumSizes]

theorem sumSizes_append (xs ys : List ColFn) :
    sumSizes (xs ++ ys) = sumSizes xs + sumSizes ys := by simp [sumSizes]

theorem nthToken_eq_dropTokN (k : Nat) : ∀ line : Str,
    nthToken line k = (Table.token (dropTokN line k)).1 := by
  induction k with
  | zero => intro line; rfl
  | succ k ih => intro line; exact ih (Table.token line).2

theorem parseCols_line (cs : List ColFn) : ∀ (line : Str) (row : List Nat) (off : Nat),
    (Table.parseCols cs line row off).2.2 = dropTokN line cs.length := by
  induction cs with
  | nil => intro line row off; rfl
  | cons c cs ih =>
    intro line row off
    simp only [Table.parseCols, List.length_cons, dropTokN]
    exact ih _ _ _

theorem parseCols_frame (cs : List ColFn) : ∀ (line : Str) (row : List Nat) (off : Nat),
    (∀ c ∈ cs, ∀ tok sp, ((c.parse tok sp).2).length = sp.length) →
    off + sumSizes cs ≤ row.length →
    (Table.parseCols cs line row off).1.length = row.length ∧
    (Table.parseCols cs line row off).1.take off = row.take off ∧
    (Table.parseCols cs line row off).1.drop (off + sumSizes cs) =
      row.drop (off + sumSizes cs) ∧
    (Table.parseCols cs line row off).2.1.length = cs.length := by
  induction cs with
  | nil => intro line row off _ _; exact ⟨rfl, rfl, rfl, rfl⟩
  | cons c cs ih =>
    intro line row off hlen hb
    rw [sumSizes_cons] at hb
    simp only [Table.parseCols]
    set tok := (Table.token line).1 with htokdef
    set line2 := (Table.token line).2 with hline2def
    set fld := (c.parse tok ((row.drop off).take c.size)).2 with hflddef
    set row2 := row.take off ++ fld ++ row.drop (off + c.size) with hrow2def
    have hoff : off + c.size ≤ row.length := by omega
    have hfield : fld.length = c.size := by
      rw [hflddef, hlen c (List.mem_cons_self c cs) _ _]
      simp only [List.length_take, List.length_drop]
      omega
    have hrowlen : row2.length = row.length := by
      rw [hrow2def]
      simp only [List.length_append, List.length_take, List.length_drop, hfield]
      omega
    have hb2 : (off + c.size) + sumSizes cs ≤ row2.length := by rw [hrowlen]; omega
    have hih := ih line2 row2 (off + c.size)
      (fun x hx => hlen x (List.mem_cons_of_mem c hx)) hb2
    refine ⟨hih.1.trans hrowlen, ?_, ?_, by simp only [List.length_cons, hih.2.2.2]⟩
    · have h2 := congrArg (List.take off) hih.2.1
      rw [List.take_take, List.take_take, Nat.min_eq_left (by omega : off ≤ off + c.size)] at h2
      have h3 : row2.take off = row.take off := by
        rw [hrow2def,
          List.take_append_of_le_length (by simp only [List.length_append, List.length_take]; omega),
          List.take_append_of_le_length (by simp only [List.length_take]; omega),
          List.take_take, Nat.min_self]
      exact h2.trans h3
    · rw [sumSizes_cons,
        show off + (c.size + sumSizes cs) = off + c.size + sumSizes cs from by omega,
        hih.2.2.1]
      have hA : (row.take off).length = off := by
        simp only [List.length_take]
        omega
      rw [hrow2def,
        show off + c.size + sumSizes cs =
          (row.take off ++ fld).length + sumSizes cs from by
            simp only [List.length_append, hA, hfield],
        List.drop_append, List.drop_drop]
      congr 1
      simp only [List.length_append, hA, hfield]

theorem parseCols_append (xs ys : List ColFn) : ∀ (line : Str) (row : List Nat) (off : Nat),
    Table.parseCols (xs ++ ys) line row off =
      ((Table.parseCols ys (Table.parseCols xs line row off).2.2
          (Table.parseCols xs line row off).1 (off + sumSizes xs)).1,
       (Table.parseCols xs line row off).2.1 ++
         (Table.parseCols ys (Table.parseCols xs line row off).2.2
           (Table.parseCols xs line row off).1 (off + sumSizes xs)).2.1,
       (Table.parseCols ys (Table.parseCols xs line row off).2.2
         (Table.parseCols xs line row off).1 (off + sumSizes xs)).2.2) := by
  induction xs with
  | nil =>
    intro line row off
    simp [Table.parseCols, sumSizes]
  | cons c cs ih =>
    intro line row off
    simp only [List.cons_append, Table.parseCols, List.append_eq]
    rw [ih]
    simp only [sumSizes_cons]
    rw [show off + (c.size + sumSizes cs) = off + c.size + sumSizes cs from by omega]

theorem setBitAt_length (span : List Nat) (j : Nat) :
    (setBitAt span j).length = span.length := by
  simp [setBitAt]

theorem parseLoop_length (tags : List Str) (subs : List Str) : ∀ span : List Nat,
    ((FlagGroupProperty.parseLoop tags subs span).2).length = span.length := by
  induction subs with
  | nil => intro span; rfl
  | cons s rest ih =>
    intro span
    simp only [FlagGroupProperty.parseLoop]
    have hsp : (if findTag tags s < tags.length
        then setBitAt span (findTag tags s) else span).length = span.length := by
      split
      · exact setBitAt_length span (findTag tags s)
      · rfl
    by_cases h2 : findTag tags s > tags.length
    · rw [if_pos h2]
      exact hsp
    · rw [if_neg h2]
      exact (ih _).trans hsp


theorem fg_parse_length (tags : List Str) (tok : Str) (sp : List Nat) :
    ((FlagGroupProperty.parse tags tok sp).2).length = sp.length := by
  unfold FlagGroupProperty.parse
  split
  · rfl
  · rw [parseLoop_length]
    simp

/-- C3: for any table whose registered columns are `pre ++ [flag group] ++
post` (each column's parse preserving its span's length) and any line whose
token for the flag-group column is the sentinel `-`, the column loop of
`Table::parse` — run on the zeroed row allocated for the line (the zeroing
is modelled from the spec, `MemArena` not being under `src/`) — reports
success for that column, and every bit of the column's one-byte bitset
field reads as unset via `is_set`. -/
theorem c3_sentinel_zero (pre post : List ColFn) (tags : List Str) (line : Str)
    (hlen : ∀ c ∈ pre ++ fgCol tags :: post, ∀ tok sp, ((c.parse tok sp).2).length = sp.length)
    (htok : nthToken line pre.length = "-".toList) :
    (Table.parseCols (pre ++ fgCol tags :: post) line
        (List.replicate (sumSizes (pre ++ fgCol tags :: post)) 0) 0).2.1.getD pre.length false
      = true ∧
    ∀ j, j < 8 →
      FlagGroupProperty.is_set (sumSizes pre) j
        (Table.parseCols (pre ++ fgCol tags :: post) line
          (List.replicate (sumSizes (pre ++ fgCol tags :: post)) 0) 0).1 = false := by
  have hsz : sumSizes (pre ++ fgCol tags :: post)
      = sumSizes pre + (1 + sumSizes post) := by
    rw [sumSizes_append, sumSizes_cons]
    rfl
  set k := sumSizes pre with hk
  set L := sumSizes (pre ++ fgCol tags :: post) with hL
  set row0 : List Nat := List.replicate L 0 with hrow0
  have hrow0len : row0.length = L := by rw [hrow0, List.length_replicate]
  have hlenpre : ∀ c ∈ pre, ∀ tok sp, ((c.parse tok sp).2).length = sp.length :=
    fun c hc => hlen c (List.mem_append_left _ hc)
  have hlenpost : ∀ c ∈ post, ∀ tok sp, ((c.parse tok sp).2).length = sp.length :=
    fun c hc => hlen c (List.mem_append_right _ (List.mem_cons_of_mem _ hc))
  have hframeA := parseCols_frame pre line row0 0 hlenpre (by rw [hrow0len]; omega)
  set A := Table.parseCols pre line row0 0 with hA
  have hA1 : A.1.length = L := hframeA.1.trans hrow0len
  have hAdrop : A.1.drop k = List.replicate (L - k) 0 := by
    have h := hframeA.2.2.1
    rw [Nat.zero_add] at h
    rw [← hk] at h
    rw [h, hrow0, List.drop_replicate]
  have hAflags : A.2.1.length = pre.length := hframeA.2.2.2
  have htok2 : (Table.token A.2.2).1 = "-".toList := by
    rw [hA, parseCols_line, ← nthToken_eq_dropTokN]
    exact htok
  have happ := parseCols_append pre (fgCol tags :: post) line row0 0
  rw [← hA] at happ
  -- one step of the fg column
  have hone : Table.parseCols (fgCol tags :: post) A.2.2 A.1 (0 + k) =
      ((Table.parseCols post (Table.token A.2.2).2
          (A.1.take k ++ [0] ++ A.1.drop (k + 1)) (k + 1)).1,
       true :: (Table.parseCols post (Table.token A.2.2).2
          (A.1.take k ++ [0] ++ A.1.drop (k + 1)) (k + 1)).2.1,
       (Table.parseCols post (Table.token A.2.2).2
          (A.1.take k ++ [0] ++ A.1.drop (k + 1)) (k + 1)).2.2) := by
    have hspan : (A.1.drop k).take (fgCol tags).size = [0] := by
      rw [hAdrop]
      show List.take 1 (List.replicate (L - k) 0) = [0]
      rw [List.take_replicate]
      have : min 1 (L - k) = 1 := by omega
      rw [this]
      rfl
    have hparse : (fgCol tags).parse (Table.token A.2.2).1
        ((A.1.drop k).take (fgCol tags).size) = (true, [0]) := by
      rw [hspan, htok2]
      show FlagGroupProperty.parse tags ("-".toList) [0] = (true, [0])
      rfl
    simp only [Table.parseCols, Nat.zero_add]
    rw [hparse]
    rfl
  rw [← hk] at happ
  rw [happ, hone]
  set row2 : List Nat := A.1.take k ++ [0] ++ A.1.drop (k + 1) with hrow2
  set C := Table.parseCols post (Table.token A.2.2).2 row2 (k + 1) with hC
  have hrow2len : row2.length = L := by
    rw [hrow2]
    simp only [List.length_append, List.length_take, List.length_drop, hA1,
      List.length_cons, List.length_nil]
    omega
  have hframeC := parseCols_frame post (Table.token A.2.2).2 row2 (k + 1) hlenpost
    (by rw [hrow2len]; omega)
  have htk : row2.take (k + 1) = A.1.take k ++ [0] := by
    rw [hrow2]
    rw [List.take_left' (by
      simp only [List.length_append, List.length_take, hA1, List.length_cons, List.length_nil]
      omega)]
  have hsplit : C.1 = (A.1.take k ++ [0]) ++ C.1.drop (k + 1) := by
    conv_lhs => rw [← List.take_append_drop (k + 1) C.1]
    rw [hframeC.2.1, htk]
  have hbyte : C.1[k]? = some 0 := by
    rw [hsplit, List.getElem?_append]
    rw [if_pos (by
      simp only [List.length_append, List.length_take, hA1, List.length_cons, List.length_nil]
      omega)]
    rw [List.getElem?_append]
    rw [if_neg (by
      simp only [List.length_take, hA1]
      omega)]
    have hkk : k - (A.1.take k).length = 0 := by
      simp only [List.length_take, hA1]
      omega
    rw [hkk]
    rfl
  constructor
  · rw [List.getD_eq_getElem?_getD,
      List.getElem?_append_right (Nat.le_of_eq hAflags)]
    rw [hAflags, Nat.sub_self]
    simp
  · intro j hj
    show ((((Table.Row.span_for C.1 k).getD (j / 8) 0 >>> (j % 8)) &&& 1) != 0) = false
    rw [Nat.div_eq_of_lt hj]
    rw [show Table.Row.span_for C.1 k = C.1.drop k from rfl]
    rw [List.getD_eq_getElem?_getD, List.getElem?_drop, Nat.add_zero, hbyte]
    simp only [Option.getD_some, Nat.zero_shiftRight, Nat.zero_and]
    rfl


/-- Witness for C3: a table with a single flag-group column (the example's
tags) and the line `-`; the column succeeds and bit 0 is unset. -/
theorem c3_sentinel_zero_witness :
    (Table.parseCols [fgCol tagsPDI] ("-".toList)
        (List.replicate (sumSizes [fgCol tagsPDI]) 0) 0).2.1.getD 0 false = true ∧
    FlagGroupProperty.is_set 0 0
      (Table.parseCols [fgCol tagsPDI] ("-".toList)
        (List.replicate (sumSizes [fgCol tagsPDI]) 0) 0).1 = false := by
  have h := c3_sentinel_zero [] [] tagsPDI ("-".toList)
    (by
      intro c hc tok sp
      simp only [List.nil_append, List.mem_cons, List.not_mem_nil, or_false] at hc
      subst hc
      exact fg_parse_length tagsPDI tok sp)
    (by decide)
  exact ⟨by simpa using h.1, by simpa using h.2 0 (by omega)⟩
